import Mathlib

/-!
Shallow embedding of `src/text-to-matrix.py` (font-to-pixel-bitmap generator).

The font engine (PIL) is an external collaborator: it is modelled by function
parameters (`measure`, `dims`, `raster`).  Everything else is translated from
the Python source: the row encoder (`hex_with_padding`, `to_bitfield`), the
ascending font-size searches (`determine_font_size_by_max_width` /
`..._by_max_height`, whose `while` loop is made total with an explicit fuel
argument, `none` meaning "still looping after `fuel` iterations"), the
maximum-dimension scan (`get_max_letter_dimensions`), the row-mask dilation
(`determine_final_height`) and the orchestration (`font_to_pixels`).
-/

set_option autoImplicit false
set_option maxHeartbeats 1000000

namespace TextToMatrix

/-- `OUTPUT_FILL` of the script: character written when a pixel is on. -/
def OUTPUT_FILL : Char := '1'

/-- `OUTPUT_EMPTY` of the script: character written when a pixel is off. -/
def OUTPUT_EMPTY : Char := '0'

/-- `OUTPUT_SEPARATOR` of the script. -/
def OUTPUT_SEPARATOR : String := "// "

/-- `OUTPUT_HEXA` of the script. -/
def OUTPUT_HEXA : Bool := true

/-- The separator used by `', '.join(pairs)` in `hex_with_padding`. -/
def COMMA_SPACE : String := ", "

/-- The literal prefix `'0x'` used in `hex_with_padding`. -/
def HEX_PREFIX : String := "0x"

/-- The newline joining the emitted lines. -/
def NEWLINE : String := "\n"

/-- One lowercase hexadecimal digit, as produced by Python `format(_, 'x')`. -/
def hexChar (n : Nat) : Char :=
  if n < 10 then Char.ofNat (48 + n) else Char.ofNat (87 + n)

/-- Digit-extraction loop for `natHexRev`, structurally recursive on a fuel
bound (any fuel above the value is enough, see `natHexRevGo_congr`). -/
def natHexRevGo : Nat → Nat → List Char
  | 0, _ => []
  | fuel + 1, n =>
    if n < 16 then [hexChar n]
    else hexChar (n % 16) :: natHexRevGo fuel (n / 16)

/-- Hexadecimal digits of `n`, least significant first (the unpadded digits
produced by Python `format(n, 'x')`, reversed). -/
def natHexRev (n : Nat) : List Char := natHexRevGo (n + 1) n

/-- Python `format(num, f'0{width}x')`: lowercase hex digits of `num`,
zero-padded on the left to at least `width` digits. -/
def hexDigitsPadded (num width : Nat) : List Char :=
  let ds := (natHexRev num).reverse
  List.replicate (width - ds.length) '0' ++ ds

/-- The pair splitting `[hex_str[i:i+2] for i in range(0, len(hex_str), 2)]`:
2-character groups taken from the left, last group possibly a single char. -/
def chunks2 : List Char → List (List Char)
  | [] => []
  | [a] => [[a]]
  | a :: b :: rest => [a, b] :: chunks2 rest

/-- `hex_with_padding` of the script. -/
def hex_with_padding (num width : Nat) : String :=
  String.intercalate COMMA_SPACE
    ((chunks2 (hexDigitsPadded num width)).map (fun p => HEX_PREFIX ++ String.mk p))

/-- The numeric value of one pixel in the `binary_arr` of `to_bitfield`. -/
def rowBit (b : Bool) : Nat := if b then 1 else 0

/-- `int(''.join(map(str, row)), 2)` of `to_bitfield`: the row read as a
big-endian bit string, leftmost pixel = most significant bit. -/
def rowToNat (row : List Bool) : Nat :=
  row.foldl (fun acc b => 2 * acc + rowBit b) 0

/-- Right-pad one row with off pixels to width `w`
(part of `new_array[:arr.shape[0], :arr.shape[1]] = arr`). -/
def padRowTo (w : Nat) (row : List Bool) : List Bool :=
  row ++ List.replicate (w - row.length) false

/-- `new_array = np.zeros((max_height, max_width)); new_array[:h, :w] = arr`:
the glyph grid embedded top-left into an all-off canvas. -/
def padGrid (grid : List (List Bool)) (max_height max_width : Nat) : List (List Bool) :=
  (grid.map (padRowTo max_width)) ++
    List.replicate (max_height - grid.length) (List.replicate max_width false)

/-- The `''.join(row)` over `comment_arr` for one row: its `1`/`0` string. -/
def commentOf (row : List Bool) : String :=
  String.mk (row.map (fun b => if b then OUTPUT_FILL else OUTPUT_EMPTY))

/-- The hex field of one emitted row in `to_bitfield`. -/
def hexOf (row : List Bool) (max_width : Nat) : String :=
  hex_with_padding (rowToNat row) ((max_width + 3) / 4)

/-- The list of lines `to_bitfield` writes for one glyph (before joining). -/
def to_bitfield_lines (grid : List (List Bool)) (max_height max_width : Nat) :
    List String :=
  let new_array := padGrid grid max_height max_width
  let hex_values := new_array.map (fun row => hexOf row max_width)
  let comments := new_array.map commentOf
  if OUTPUT_HEXA then
    (hex_values.zip comments).map
      (fun p => p.1 ++ ",\t " ++ OUTPUT_SEPARATOR ++ p.2)
  else
    comments.map (fun c => OUTPUT_SEPARATOR ++ c)

/-- Everything `to_bitfield` writes to the file for one glyph. -/
def to_bitfield_text (grid : List (List Bool)) (max_height max_width : Nat) : String :=
  String.intercalate NEWLINE (to_bitfield_lines grid max_height max_width) ++ "\n\n"

/-- The `while` loop shared by both size searches.  State: `cur` is the last
measured dimension (`max_width` / `max_height` in the script, starting at 0),
`size` the next size to probe, `last_size` as in the script.  `measure s` is
the relevant dimension of the probe string at font size `s` (external font
engine).  `fuel` bounds the number of iterations; `none` means the Python
loop would still be running after `fuel` iterations. -/
def searchLoop (measure : Nat → Nat) (limit : Int) :
    Nat → Int → Nat → Nat → Option Nat
  | fuel, cur, size, last_size =>
    if cur < limit then
      match fuel with
      | 0 => none
      | f + 1 => searchLoop measure limit f ((measure size : Nat) : Int) (size + 1) size
    else if limit < cur then some last_size
    else some size

/-- `determine_font_size_by_max_width` of the script, with the font engine
abstracted to `measure` (width of the probe string at a given size). -/
def determine_font_size_by_max_width (measure : Nat → Nat) (px_width : Int)
    (fuel : Nat) : Option Nat :=
  searchLoop measure px_width fuel 0 1 1

/-- `determine_font_size_by_max_height` of the script: the limit is first
reduced by 2 (padding compensation), then the same loop runs on heights. -/
def determine_font_size_by_max_height (measure : Nat → Nat) (px_height : Int)
    (fuel : Nat) : Option Nat :=
  searchLoop measure (px_height - 2) fuel 0 1 1

/-- `get_max_letter_dimensions` of the script: running maxima of per-character
ink widths and heights, the height doubled at the end. -/
def get_max_letter_dimensions (dims : Char → Nat × Nat) (base_string : List Char) :
    Nat × Nat :=
  let r := base_string.foldl
    (fun acc c => (max (dims c).1 acc.1, max (dims c).2 acc.2)) (0, 0)
  (r.1, r.2 * 2)

/-- The dilated neighbourhood test of `determine_final_height`:
`mask[index] or mask[max(index - 1, 0)] or mask[min(index + 1, len(mask) - 1)]`
(natural subtraction clamps at 0 exactly like Python's `max(index - 1, 0)`). -/
def maskHit (mask : List Bool) (index : Nat) : Bool :=
  mask.getD index false || mask.getD (index - 1) false ||
    mask.getD (min (index + 1) (mask.length - 1)) false

/-- One iteration of the inner loop of `determine_final_height`. -/
def maskStep (mask : List Bool) (total : List Bool) (index : Nat) : List Bool :=
  if maskHit mask index then total.set index true else total

/-- The inner `for index, _ in enumerate(mask)` loop of `determine_final_height`. -/
def applyMask (total : List Bool) (mask : List Bool) : List Bool :=
  (List.range mask.length).foldl (maskStep mask) total

/-- `determine_final_height` of the script: the shared row mask (dilated union
of the per-glyph masks) together with its count of `True` entries. -/
def determine_final_height (masks : List (List Bool)) : List Bool × Nat :=
  let total_mask :=
    masks.foldl applyMask (List.replicate (masks.getLast?.getD []).length false)
  (total_mask, total_mask.count true)

/-- `char_to_pixels` of the script with the rasterizer abstracted: returns the
glyph grid and its row-activity mask `(arr != 0).any(axis=1)`. -/
def char_to_pixels (raster : Char → Nat → Nat → List (List Bool)) (c : Char)
    (width height : Nat) : List (List Bool) × List Bool :=
  let arr := raster c width height
  (arr, arr.map (fun row => row.any id))

/-- `char_arr[total_mask]`: keep the rows whose mask entry is `True`. -/
def cropRows (grid : List (List Bool)) (mask : List Bool) : List (List Bool) :=
  ((grid.zip mask).filter (fun p => p.2)).map (fun p => p.1)

/-- `generate_header` of the script. -/
def generate_header : String :=
  "\n// This is a file generated by text-to-matrix.py\nconst uint8_t FontPy_Table [] = \x7b\n"

/-- `generate_footer` of the script. -/
def generate_footer (max_width actual_height : Nat) : String :=
  "\x7d;\n  /* Width = " ++ toString max_width ++ " */\n  /* Height = " ++
    toString actual_height ++ " */\n"

/-- The size-resolution `if/elif` chain at the top of `font_to_pixels`.
An unmatched `font_size_option` leaves Python's `font_size` unbound, raising
`UnboundLocalError` at the following `truetype` call: modelled as `none`. -/
def resolve_font_size (widthOf heightOf : Nat → Nat) (font_size_option : String)
    (letter_max_px_width str_max_px_width : Int) (input_font_size : Nat)
    (fuel : Nat) : Option Nat :=
  if font_size_option = "font_size" then some input_font_size
  else if font_size_option = "letter_max_px_width" then
    determine_font_size_by_max_height heightOf letter_max_px_width fuel
  else if font_size_option = "str_max_px_width" then
    determine_font_size_by_max_width widthOf str_max_px_width fuel
  else if font_size_option = "max_px_both" then
    match determine_font_size_by_max_height heightOf letter_max_px_width fuel,
          determine_font_size_by_max_width widthOf str_max_px_width fuel with
    | some size_by_height, some size_by_width => some (min size_by_height size_by_width)
    | _, _ => none
  else none

/-- `font_to_pixels` of the script.  The font engine is abstracted by
`widthOf`/`heightOf` (search metrics at a given size), `dims` (per-character
ink bounding box at the resolved size) and `raster` (glyph grid at the
resolved size).  `none` models a run that aborts before the output file is
opened (unknown mode → `UnboundLocalError`; empty alphabet → `IndexError` at
`masks[-1]`; exhausted fuel → search still looping).  `some s` is the full
text written to the output file. -/
def font_to_pixels (widthOf heightOf : Nat → Nat) (dims : Nat → Char → Nat × Nat)
    (raster : Nat → Char → Nat → Nat → List (List Bool)) (all_letters : List Char)
    (font_size_option : String) (letter_max_px_width str_max_px_width : Int)
    (input_font_size : Nat) (fuel : Nat) : Option String :=
  match resolve_font_size widthOf heightOf font_size_option letter_max_px_width
      str_max_px_width input_font_size fuel with
  | none => none
  | some font_size =>
    let md := get_max_letter_dimensions (dims font_size) all_letters
    let pairs := all_letters.map
      (fun c => char_to_pixels (raster font_size) c md.1 md.2)
    let letters := pairs.map (fun p => p.1)
    let masks := pairs.map (fun p => p.2)
    if masks.isEmpty then none
    else
      let r := determine_final_height masks
      some (generate_header ++
        String.join (letters.map (fun arr => to_bitfield_text (cropRows arr r.1) r.2 md.1)) ++
        generate_footer md.1 r.2)

/-! Decoding side used to state the bit-packing round trip (claim C4): the
inverse reading of the emitted lowercase hex digits, 4 bits per digit,
big-endian within the digit and across digits. -/

/-- Value of one lowercase hexadecimal digit character. -/
def hexCharVal (c : Char) : Nat :=
  if c.toNat ≤ 57 then c.toNat - 48 else c.toNat - 87

/-- The `len`-bit big-endian binary expansion of `n` (low bit rightmost). -/
def natToBits : Nat → Nat → List Bool
  | _, 0 => []
  | n, len + 1 => natToBits (n / 2) len ++ [n % 2 == 1]

/-- Decode a hex digit string back into the bit string it denotes. -/
def decodeHexDigits : List Char → List Bool
  | [] => []
  | c :: cs => natToBits (hexCharVal c) 4 ++ decodeHexDigits cs

/-! ### Helper lemmas about the row encoder -/

theorem foldl_rowToNat_lt (row : List Bool) :
    ∀ acc : Nat, row.foldl (fun acc b => 2 * acc + rowBit b) acc < (acc + 1) * 2 ^ row.length := by
  induction row with
  | nil => intro acc; simp
  | cons b t ih =>
    intro acc
    have hstep : 2 * acc + rowBit b + 1 ≤ 2 * (acc + 1) := by
      have hb : rowBit b ≤ 1 := by cases b <;> simp [rowBit]
      omega
    have h1 : List.foldl (fun acc b => 2 * acc + rowBit b) (2 * acc + rowBit b) t <
        (2 * acc + rowBit b + 1) * 2 ^ t.length := ih _
    have h2 : (2 * acc + rowBit b + 1) * 2 ^ t.length ≤ (2 * (acc + 1)) * 2 ^ t.length :=
      Nat.mul_le_mul_right _ hstep
    have h3 : (2 * (acc + 1)) * 2 ^ t.length = (acc + 1) * 2 ^ (t.length + 1) := by ring
    simpa [List.length_cons, h3] using lt_of_lt_of_le h1 h2

theorem rowToNat_lt (row : List Bool) : rowToNat row < 2 ^ row.length := by
  simpa [rowToNat] using foldl_rowToNat_lt row 0

theorem rowToNat_append_singleton (l : List Bool) (a : Bool) :
    rowToNat (l ++ [a]) = 2 * rowToNat l + rowBit a := by
  simp [rowToNat, List.foldl_append]

theorem natToBits_length (n len : Nat) : (natToBits n len).length = len := by
  induction len generalizing n with
  | zero => rfl
  | succ len ih => simp [natToBits, ih]

theorem natToBits_zero (len : Nat) : natToBits 0 len = List.replicate len false := by
  induction len with
  | zero => rfl
  | succ len ih =>
    have : ((0 : Nat) % 2 == 1) = false := by decide
    simp [natToBits, ih, this, List.replicate_succ']

theorem natToBits_rowToNat (row : List Bool) : natToBits (rowToNat row) row.length = row := by
  induction row using List.reverseRecOn with
  | nil => rfl
  | append_singleton l a ih =>
    have hbit : rowBit a ≤ 1 := by cases a <;> simp [rowBit]
    have hlen : (l ++ [a]).length = l.length + 1 := by simp
    have hstep : natToBits (rowToNat (l ++ [a])) (l.length + 1) =
        natToBits (rowToNat (l ++ [a]) / 2) l.length ++ [rowToNat (l ++ [a]) % 2 == 1] := rfl
    have hv : rowToNat (l ++ [a]) = 2 * rowToNat l + rowBit a :=
      rowToNat_append_singleton l a
    have hdiv : rowToNat (l ++ [a]) / 2 = rowToNat l := by rw [hv]; omega
    have hmod : (rowToNat (l ++ [a]) % 2 == 1) = a := by
      rw [hv]; cases a
      · have h0 : rowBit false = 0 := rfl
        have h : (2 * rowToNat l + rowBit false) % 2 = 0 := by rw [h0]; omega
        rw [h]; rfl
      · have h1 : rowBit true = 1 := rfl
        have h : (2 * rowToNat l + rowBit true) % 2 = 1 := by rw [h1]; omega
        rw [h]; rfl
    rw [hlen, hstep, hdiv, hmod, ih]

theorem natToBits_extend (k m : Nat) :
    ∀ n : Nat, n < 2 ^ m → natToBits n (k + m) = List.replicate k false ++ natToBits n m := by
  induction m with
  | zero =>
    intro n hn
    have : n = 0 := by simpa using hn
    subst this
    simp [natToBits_zero]
  | succ m ih =>
    intro n hn
    have hrec : n / 2 < 2 ^ m := by
      have h2 : n < 2 * 2 ^ m := by
        have h3 := hn
        rw [Nat.pow_succ] at h3
        omega
      exact Nat.div_lt_of_lt_mul h2
    have e1 : natToBits n (k + (m + 1)) =
        natToBits (n / 2) (k + m) ++ [n % 2 == 1] := rfl
    have e2 : natToBits n (m + 1) = natToBits (n / 2) m ++ [n % 2 == 1] := rfl
    rw [e1, ih (n / 2) hrec, e2, List.append_assoc]

theorem natToBits_peel16 (n m : Nat) :
    natToBits n (m + 4) = natToBits (n / 16) m ++ natToBits (n % 16) 4 := by
  have h1 : n % 16 % 2 = n % 2 := by omega
  have h2 : n % 16 / 2 % 2 = n / 2 % 2 := by omega
  have h3 : n % 16 / 2 / 2 % 2 = n / 2 / 2 % 2 := by omega
  have h4 : n % 16 / 2 / 2 / 2 % 2 = n / 2 / 2 / 2 % 2 := by omega
  have h5 : n / 2 / 2 / 2 / 2 = n / 16 := by omega
  have e : ∀ w l : Nat, natToBits w (l + 1) = natToBits (w / 2) l ++ [w % 2 == 1] :=
    fun _ _ => rfl
  calc natToBits n (m + 4)
      = natToBits (n / 2 / 2 / 2 / 2) m ++
          ([n / 2 / 2 / 2 % 2 == 1] ++ ([n / 2 / 2 % 2 == 1] ++
            ([n / 2 % 2 == 1] ++ [n % 2 == 1]))) := by
        rw [e n (m + 3), e (n / 2) (m + 2), e (n / 2 / 2) (m + 1), e (n / 2 / 2 / 2) m]
        simp [List.append_assoc]
    _ = natToBits (n / 16) m ++ natToBits (n % 16) 4 := by
        rw [h5]
        congr 1
        rw [e (n % 16) 3, e (n % 16 / 2) 2, e (n % 16 / 2 / 2) 1, e (n % 16 / 2 / 2 / 2) 0]
        simp [natToBits, h1, h2, h3, h4]

theorem natHexRevGo_congr : ∀ (f1 f2 n : Nat), n < f1 → n < f2 →
    natHexRevGo f1 n = natHexRevGo f2 n := by
  intro f1
  induction f1 with
  | zero => intro f2 n h1; omega
  | succ f1 ih =>
    intro f2 n h1 h2
    obtain ⟨g, rfl⟩ : ∃ g, f2 = g + 1 := ⟨f2 - 1, by omega⟩
    by_cases h : n < 16
    · simp [natHexRevGo, h]
    · have hdiv : n / 16 < n := Nat.div_lt_self (by omega) (by omega)
      simp only [natHexRevGo, if_neg h]
      rw [ih g (n / 16) (by omega) (by omega)]

theorem natHexRev_lt16 {n : Nat} (h : n < 16) : natHexRev n = [hexChar n] := by
  simp [natHexRev, natHexRevGo, h]

theorem natHexRev_ge16 {n : Nat} (h : ¬ n < 16) :
    natHexRev n = hexChar (n % 16) :: natHexRev (n / 16) := by
  have hdiv : n / 16 < n := Nat.div_lt_self (by omega) (by omega)
  have h1 : natHexRev n = hexChar (n % 16) :: natHexRevGo n (n / 16) := by
    show natHexRevGo (n + 1) n = _
    simp only [natHexRevGo, if_neg h]
  rw [h1, natHexRevGo_congr n (n / 16 + 1) (n / 16) (by omega) (by omega)]
  rfl

theorem natHexRev_ne_nil (n : Nat) : natHexRev n ≠ [] := by
  by_cases h : n < 16
  · rw [natHexRev_lt16 h]; simp
  · rw [natHexRev_ge16 h]; simp

theorem natHexRev_head (n : Nat) : (natHexRev n).head? = some (hexChar (n % 16)) := by
  by_cases h : n < 16
  · rw [natHexRev_lt16 h, Nat.mod_eq_of_lt h]; rfl
  · rw [natHexRev_ge16 h]; rfl

theorem natHexRev_lt (n : Nat) : n < 16 ^ (natHexRev n).length := by
  induction n using Nat.strong_induction_on with
  | _ n ih =>
    by_cases h : n < 16
    · rw [natHexRev_lt16 h]; simpa using h
    · rw [natHexRev_ge16 h]
      have hdiv : n / 16 < n := Nat.div_lt_self (by omega) (by omega)
      have hrec := ih (n / 16) hdiv
      have hmod : n % 16 < 16 := Nat.mod_lt _ (by omega)
      have hsplit : n = 16 * (n / 16) + n % 16 := (Nat.div_add_mod n 16).symm
      have : 16 * (n / 16) + n % 16 < 16 * 16 ^ (natHexRev (n / 16)).length := by
        have h16 : 16 * (n / 16 + 1) ≤ 16 * 16 ^ (natHexRev (n / 16)).length :=
          Nat.mul_le_mul_left 16 hrec
        omega
      calc n = 16 * (n / 16) + n % 16 := hsplit
        _ < 16 * 16 ^ (natHexRev (n / 16)).length := this
        _ = 16 ^ (hexChar (n % 16) :: natHexRev (n / 16)).length := by
            rw [List.length_cons, Nat.pow_succ, Nat.mul_comm]

theorem natHexRev_len_le {n w : Nat} (h1 : 1 ≤ w) (h2 : n < 16 ^ w) :
    (natHexRev n).length ≤ w := by
  induction n using Nat.strong_induction_on generalizing w with
  | _ n ih =>
    by_cases h : n < 16
    · rw [natHexRev_lt16 h]; simpa using h1
    · rw [natHexRev_ge16 h]
      have hw2 : 2 ≤ w := by
        by_contra hc
        have hw1 : w = 1 := by omega
        rw [hw1, pow_one] at h2
        exact h h2
      have hdivn : n / 16 < n := Nat.div_lt_self (by omega) (by omega)
      have hdivlt : n / 16 < 16 ^ (w - 1) := by
        have hp : 16 ^ w = 16 * 16 ^ (w - 1) := by
          have hcongr : (16 : Nat) ^ ((w - 1) + 1) = 16 * 16 ^ (w - 1) := by
            rw [Nat.pow_succ, Nat.mul_comm]
          rw [← hcongr]
          congr 1
          omega
        rw [hp] at h2
        have := Nat.div_lt_of_lt_mul (by omega : n < 16 * 16 ^ (w - 1))
        omega
      have := ih (n / 16) hdivn (by omega : 1 ≤ w - 1) hdivlt
      simp only [List.length_cons]
      omega

theorem decodeHexDigits_append (a b : List Char) :
    decodeHexDigits (a ++ b) = decodeHexDigits a ++ decodeHexDigits b := by
  induction a with
  | nil => rfl
  | cons c cs ih => simp [decodeHexDigits, ih, List.append_assoc]

theorem decodeHexDigits_length (ds : List Char) :
    (decodeHexDigits ds).length = 4 * ds.length := by
  induction ds with
  | nil => rfl
  | cons c cs ih =>
    simp [decodeHexDigits, List.length_append, natToBits_length, ih]
    omega

theorem hexCharVal_hexChar : ∀ n : Nat, n < 16 → hexCharVal (hexChar n) = n := by decide

theorem decodeHexDigits_replicate_zero (k : Nat) :
    decodeHexDigits (List.replicate k '0') = List.replicate (4 * k) false := by
  induction k with
  | zero => rfl
  | succ k ih =>
    have hz : natToBits (hexCharVal '0') 4 = List.replicate 4 false := by decide
    have hk : 4 * (k + 1) = 4 + 4 * k := by omega
    simp [List.replicate_succ, decodeHexDigits, ih, hz, hk, List.replicate_add]

theorem decodeHexDigits_natHexRev (n : Nat) :
    decodeHexDigits ((natHexRev n).reverse) = natToBits n (4 * (natHexRev n).length) := by
  induction n using Nat.strong_induction_on with
  | _ n ih =>
    by_cases h : n < 16
    · rw [natHexRev_lt16 h]
      have : decodeHexDigits [hexChar n] = natToBits n 4 := by
        simp [decodeHexDigits, hexCharVal_hexChar n h]
      simpa using this
    · rw [natHexRev_ge16 h]
      have hdivn : n / 16 < n := Nat.div_lt_self (by omega) (by omega)
      have hrec := ih (n / 16) hdivn
      have hmod : n % 16 < 16 := Nat.mod_lt _ (by omega)
      have hlast : decodeHexDigits [hexChar (n % 16)] = natToBits (n % 16) 4 := by
        simp [decodeHexDigits, hexCharVal_hexChar _ hmod]
      have hlen : 4 * (hexChar (n % 16) :: natHexRev (n / 16)).length =
          4 * (natHexRev (n / 16)).length + 4 := by
        simp [List.length_cons]
        omega
      rw [List.reverse_cons, decodeHexDigits_append, hrec, hlast, hlen]
      exact (natToBits_peel16 n _).symm

theorem pow16_eq (k : Nat) : (16 : Nat) ^ k = 2 ^ (4 * k) := by
  rw [Nat.pow_mul]

theorem hexDigitsPadded_length {num width : Nat} (h1 : 1 ≤ width)
    (h2 : num < 16 ^ width) : (hexDigitsPadded num width).length = width := by
  have hle := natHexRev_len_le h1 h2
  simp [hexDigitsPadded, List.length_append, List.length_replicate, List.length_reverse]
  omega

theorem decodeHexDigits_hexDigitsPadded {num width : Nat} (h1 : 1 ≤ width)
    (h2 : num < 16 ^ width) :
    decodeHexDigits (hexDigitsPadded num width) = natToBits num (4 * width) := by
  have hle := natHexRev_len_le h1 h2
  have hlt : num < 2 ^ (4 * (natHexRev num).length) := by
    rw [← pow16_eq]
    exact natHexRev_lt num
  have hbody : decodeHexDigits (hexDigitsPadded num width) =
      List.replicate (4 * (width - (natHexRev num).length)) false ++
        natToBits num (4 * (natHexRev num).length) := by
    have hrev : ((natHexRev num).reverse).length = (natHexRev num).length :=
      List.length_reverse _
    simp only [hexDigitsPadded, hrev, decodeHexDigits_append,
      decodeHexDigits_replicate_zero, decodeHexDigits_natHexRev]
  rw [hbody, ← natToBits_extend _ _ num hlt]
  congr 1
  omega

theorem chunks2_length (l : List Char) : (chunks2 l).length = (l.length + 1) / 2 := by
  induction l using chunks2.induct with
  | case1 => rfl
  | case2 a => simp [chunks2]
  | case3 a b rest ih =>
    simp only [chunks2, List.length_cons, ih]
    omega

theorem list_len2 (p : List Char) (h : p.length = 2) : ∃ a b : Char, p = [a, b] := by
  match p, h with
  | [a, b], _ => exact ⟨a, b, rfl⟩

theorem chunks2_dropLast_odd (l : List Char) (hodd : l.length % 2 = 1) :
    ∀ p ∈ (chunks2 l).dropLast, p.length = 2 := by
  induction l using chunks2.induct with
  | case1 => simp at hodd
  | case2 a => intro p hp; simp [chunks2] at hp
  | case3 a b rest ih =>
    intro p hp
    have hro : rest.length % 2 = 1 := by
      simp only [List.length_cons] at hodd
      omega
    have hpos : 0 < (chunks2 rest).length := by
      rw [chunks2_length]
      omega
    have hne : chunks2 rest ≠ [] := List.length_pos.mp hpos
    cases hcr : chunks2 rest with
    | nil => exact absurd hcr hne
    | cons x xs =>
      have hc : chunks2 (a :: b :: rest) = [a, b] :: x :: xs := by
        have : chunks2 (a :: b :: rest) = [a, b] :: chunks2 rest := rfl
        rw [this, hcr]
      rw [hc] at hp
      have hd : ([a, b] :: x :: xs).dropLast = [a, b] :: (x :: xs).dropLast := rfl
      rw [hd] at hp
      rcases List.mem_cons.mp hp with h2 | h2
      · rw [h2]; rfl
      · exact ih hro p (by rw [hcr]; exact h2)

theorem chunks2_getLast_odd (l : List Char) (c : Char) (hl : l.getLast? = some c)
    (hodd : l.length % 2 = 1) : (chunks2 l).getLast? = some [c] := by
  induction l using chunks2.induct with
  | case1 => simp at hl
  | case2 a =>
    have : a = c := by simpa using hl
    rw [← this]; rfl
  | case3 a b rest ih =>
    have hro : rest.length % 2 = 1 := by
      simp only [List.length_cons] at hodd
      omega
    have hrne : rest ≠ [] := by
      intro hnil
      rw [hnil] at hro
      simp at hro
    obtain ⟨r, rs, hrest⟩ := List.exists_cons_of_ne_nil hrne
    have hl' : rest.getLast? = some c := by
      rw [hrest] at hl ⊢
      rw [List.getLast?_cons_cons, List.getLast?_cons_cons] at hl
      exact hl
    have hpos : 0 < (chunks2 rest).length := by
      rw [chunks2_length, hrest]
      simp only [List.length_cons]
      omega
    obtain ⟨x, xs, hcr⟩ := List.exists_cons_of_ne_nil (List.length_pos.mp hpos)
    have hc : chunks2 (a :: b :: rest) = [a, b] :: x :: xs := by
      have : chunks2 (a :: b :: rest) = [a, b] :: chunks2 rest := rfl
      rw [this, hcr]
    rw [hc, List.getLast?_cons_cons, ← hcr]
    exact ih hl' hro

theorem dropLast_map {α β : Type} (f : α → β) :
    ∀ l : List α, (l.map f).dropLast = l.dropLast.map f := by
  intro l
  induction l with
  | nil => rfl
  | cons a t ih =>
    cases t with
    | nil => rfl
    | cons b t' =>
      have h1 : ((a :: b :: t').map f).dropLast = f a :: ((b :: t').map f).dropLast := rfl
      have h2 : (a :: b :: t').dropLast = a :: (b :: t').dropLast := rfl
      rw [h1, h2, ih, List.map_cons]

theorem getLast?_map {α β : Type} (f : α → β) :
    ∀ l : List α, (l.map f).getLast? = l.getLast?.map f := by
  intro l
  induction l with
  | nil => rfl
  | cons a t ih =>
    cases t with
    | nil => rfl
    | cons b t' =>
      have h1 : (a :: b :: t').map f = f a :: f b :: t'.map f := rfl
      rw [h1, List.getLast?_cons_cons, List.getLast?_cons_cons]
      exact ih

theorem hexDigitsPadded_getLast (num width : Nat) :
    (hexDigitsPadded num width).getLast? = some (hexChar (num % 16)) := by
  have hne : (natHexRev num).reverse ≠ [] := by
    intro h
    have := natHexRev_ne_nil num
    rw [← List.reverse_reverse (natHexRev num), h] at this
    exact this rfl
  have happ : (hexDigitsPadded num width).getLast? = ((natHexRev num).reverse).getLast? := by
    simp only [hexDigitsPadded]
    exact List.getLast?_append_of_ne_nil _ hne
  rw [happ, List.getLast?_reverse, natHexRev_head]

theorem drop_replicate_append {α : Type} (k : Nat) (a : α) (l : List α) :
    (List.replicate k a ++ l).drop k = l := by
  induction k with
  | zero => rfl
  | succ k ih =>
    simp only [List.replicate_succ, List.cons_append, List.drop_succ_cons]
    exact ih

theorem rowToNat_lt_pow16 {max_width : Nat} (row : List Bool)
    (hlen : row.length = max_width) :
    rowToNat row < 16 ^ ((max_width + 3) / 4) := by
  have h := rowToNat_lt row
  rw [hlen] at h
  have hle : max_width ≤ 4 * ((max_width + 3) / 4) := by omega
  calc rowToNat row < 2 ^ max_width := h
    _ ≤ 2 ^ (4 * ((max_width + 3) / 4)) := Nat.pow_le_pow_right (by omega) hle
    _ = 16 ^ ((max_width + 3) / 4) := (pow16_eq _).symm

/-! ### Claims about the row encoder (C3, C4, C10) -/

/-- C3: the row encoder reads the row as a big-endian bit string (leftmost
pixel = most significant bit, on = 1), formats its value with exactly
`ceil(max_width / 4)` lowercase hex digits zero-padded on the left, and splits
the digit string into 2-character groups from the left, each emitted as
`0xHH`; for `max_width = 8` and the row `[on,on,on,on,off,off,off,off]` the
hex output is `"0xf0"` and the comment is `"11110000"`. -/
theorem C3_row_encoder_bigendian_hex (max_width : Nat) (row : List Bool)
    (hpos : 0 < max_width) (hlen : row.length = max_width) :
    (hexDigitsPadded (rowToNat row) ((max_width + 3) / 4)).length = (max_width + 3) / 4 ∧
    hexOf row max_width = String.intercalate COMMA_SPACE
      ((chunks2 (hexDigitsPadded (rowToNat row) ((max_width + 3) / 4))).map
        (fun p => HEX_PREFIX ++ String.mk p)) ∧
    hexOf [true, true, true, true, false, false, false, false] 8 = "0xf0" ∧
    commentOf [true, true, true, true, false, false, false, false] = "11110000" := by
  refine ⟨?_, rfl, by decide, by decide⟩
  exact hexDigitsPadded_length (by omega) (rowToNat_lt_pow16 row hlen)

theorem C3_row_encoder_witness :
    (hexDigitsPadded (rowToNat [true, true, true, true, false, false, false, false])
      ((8 + 3) / 4)).length = (8 + 3) / 4 ∧
    hexOf [true, true, true, true, false, false, false, false] 8 = "0xf0" ∧
    commentOf [true, true, true, true, false, false, false, false] = "11110000" := by
  have h := C3_row_encoder_bigendian_hex 8
    [true, true, true, true, false, false, false, false] (by decide) (by decide)
  exact ⟨h.1, h.2.2.1, h.2.2.2⟩

/-- C4: decoding the emitted hex digits back into a bit string (4 bits per
digit, big-endian) and discarding the `4 * ceil(max_width/4) - max_width`
zero left-padding bits recovers exactly the row, hence the row's `1`/`0`
comment string: the hex field and the binary comment of a line denote the
same pixels. -/
theorem C4_hex_comment_roundtrip (max_width : Nat) (row : List Bool)
    (hpos : 0 < max_width) (hlen : row.length = max_width) :
    (decodeHexDigits (hexDigitsPadded (rowToNat row) ((max_width + 3) / 4))).drop
        (4 * ((max_width + 3) / 4) - max_width) = row ∧
    commentOf ((decodeHexDigits (hexDigitsPadded (rowToNat row) ((max_width + 3) / 4))).drop
        (4 * ((max_width + 3) / 4) - max_width)) = commentOf row := by
  have hv16 := rowToNat_lt_pow16 row hlen
  have hdec : decodeHexDigits (hexDigitsPadded (rowToNat row) ((max_width + 3) / 4)) =
      natToBits (rowToNat row) (4 * ((max_width + 3) / 4)) :=
    decodeHexDigits_hexDigitsPadded (by omega) hv16
  have hv2 : rowToNat row < 2 ^ max_width := by
    have h := rowToNat_lt row
    rwa [hlen] at h
  have hext : natToBits (rowToNat row) (4 * ((max_width + 3) / 4)) =
      List.replicate (4 * ((max_width + 3) / 4) - max_width) false ++
        natToBits (rowToNat row) max_width := by
    have h := natToBits_extend (4 * ((max_width + 3) / 4) - max_width) max_width
      (rowToNat row) hv2
    rw [show 4 * ((max_width + 3) / 4) - max_width + max_width =
      4 * ((max_width + 3) / 4) from by omega] at h
    exact h
  have hrt : natToBits (rowToNat row) max_width = row := by
    have h := natToBits_rowToNat row
    rwa [hlen] at h
  have hdrop : (List.replicate (4 * ((max_width + 3) / 4) - max_width) false ++ row).drop
      (4 * ((max_width + 3) / 4) - max_width) = row :=
    drop_replicate_append _ _ row
  rw [hdec, hext, hrt]
  exact ⟨hdrop, congrArg commentOf hdrop⟩

theorem C4_hex_comment_roundtrip_witness :
    (decodeHexDigits (hexDigitsPadded (rowToNat [true, false, true, false, true, false])
        ((6 + 3) / 4))).drop (4 * ((6 + 3) / 4) - 6) = [true, false, true, false, true, false] ∧
    commentOf ((decodeHexDigits (hexDigitsPadded (rowToNat [true, false, true, false, true, false])
        ((6 + 3) / 4))).drop (4 * ((6 + 3) / 4) - 6)) =
      commentOf [true, false, true, false, true, false] :=
  C4_hex_comment_roundtrip 6 [true, false, true, false, true, false] (by decide) (by decide)

/-- C10: when the hex digit count `w = ceil(max_width/4)` is odd, the emitted
literal list is `floor(w/2)` two-digit `0xHH` literals followed by one
single-digit literal `0xH` holding the least significant nibble of the packed
row value, so `ceil(w/2)` literals in total, joined by `", "` into the hex
field of the line. -/
theorem C10_odd_nibble_split (max_width : Nat) (row : List Bool)
    (hlen : row.length = max_width) (hodd : ((max_width + 3) / 4) % 2 = 1) :
    ((chunks2 (hexDigitsPadded (rowToNat row) ((max_width + 3) / 4))).map
        (fun p => HEX_PREFIX ++ String.mk p)).length = ((max_width + 3) / 4 + 1) / 2 ∧
    (∀ s ∈ ((chunks2 (hexDigitsPadded (rowToNat row) ((max_width + 3) / 4))).map
        (fun p => HEX_PREFIX ++ String.mk p)).dropLast,
      ∃ a b : Char, s = HEX_PREFIX ++ String.mk [a, b]) ∧
    ((chunks2 (hexDigitsPadded (rowToNat row) ((max_width + 3) / 4))).map
        (fun p => HEX_PREFIX ++ String.mk p)).getLast? =
      some (HEX_PREFIX ++ String.mk [hexChar (rowToNat row % 16)]) ∧
    hexOf row max_width = String.intercalate COMMA_SPACE
      ((chunks2 (hexDigitsPadded (rowToNat row) ((max_width + 3) / 4))).map
        (fun p => HEX_PREFIX ++ String.mk p)) := by
  have hw1 : 1 ≤ (max_width + 3) / 4 := by omega
  have hv16 := rowToNat_lt_pow16 row hlen
  have hdslen : (hexDigitsPadded (rowToNat row) ((max_width + 3) / 4)).length =
      (max_width + 3) / 4 := hexDigitsPadded_length hw1 hv16
  have hdsodd : (hexDigitsPadded (rowToNat row) ((max_width + 3) / 4)).length % 2 = 1 := by
    rw [hdslen]; exact hodd
  refine ⟨?_, ?_, ?_, rfl⟩
  · rw [List.length_map, chunks2_length, hdslen]
  · intro s hs
    rw [dropLast_map] at hs
    obtain ⟨p, hp, hfp⟩ := List.mem_map.mp hs
    obtain ⟨a, b, hab⟩ := list_len2 p (chunks2_dropLast_odd _ hdsodd p hp)
    exact ⟨a, b, by rw [← hfp, hab]⟩
  · rw [getLast?_map, chunks2_getLast_odd _ (hexChar (rowToNat row % 16))
      (hexDigitsPadded_getLast _ _) hdsodd]
    rfl

theorem C10_odd_nibble_split_witness :
    ((chunks2 (hexDigitsPadded (rowToNat [true, false, true, false]) ((4 + 3) / 4))).map
        (fun p => HEX_PREFIX ++ String.mk p)).length = ((4 + 3) / 4 + 1) / 2 ∧
    ((chunks2 (hexDigitsPadded (rowToNat [true, false, true, false]) ((4 + 3) / 4))).map
        (fun p => HEX_PREFIX ++ String.mk p)).getLast? =
      some (HEX_PREFIX ++ String.mk [hexChar (rowToNat [true, false, true, false] % 16)]) ∧
    hexOf [true, false, true, false] 4 = "0xa" := by
  have h := C10_odd_nibble_split 4 [true, false, true, false] (by decide) (by decide)
  exact ⟨h.1, h.2.2.1, by decide⟩

/-! ### Helper lemmas about the shared row mask (`determine_final_height`) -/

theorem getD_true_lt_length (t : List Bool) (j : Nat) (h : t.getD j false = true) :
    j < t.length := by
  by_contra hc
  rw [List.getD_eq_default _ _ (by omega)] at h
  simp at h

theorem getD_true_mem (t : List Bool) (j : Nat) (h : t.getD j false = true) :
    true ∈ t := by
  induction t generalizing j with
  | nil => simp at h
  | cons a t ih =>
    cases j with
    | zero =>
      rw [List.getD_cons_zero] at h
      rw [h]
      exact List.mem_cons_self _ _
    | succ j =>
      rw [List.getD_cons_succ] at h
      exact List.mem_cons_of_mem _ (ih j h)

theorem getD_set_true (t : List Bool) (i j : Nat) (h : t.getD j false = true) :
    (t.set i true).getD j false = true := by
  induction t generalizing i j with
  | nil => simp at h
  | cons a t ih =>
    cases i with
    | zero =>
      cases j with
      | zero => rfl
      | succ j => simpa using h
    | succ i =>
      cases j with
      | zero => simpa using h
      | succ j =>
        have := ih i j (by simpa using h)
        simpa using this

theorem getD_set_self (t : List Bool) (j : Nat) (h : j < t.length) :
    (t.set j true).getD j false = true := by
  induction t generalizing j with
  | nil => simp at h
  | cons a t ih =>
    cases j with
    | zero => rfl
    | succ j => simpa using ih j (by simpa using h)

theorem length_maskStep (mask t : List Bool) (i : Nat) :
    (maskStep mask t i).length = t.length := by
  unfold maskStep
  split <;> simp

theorem length_foldl_maskStep (mask : List Bool) :
    ∀ (l : List Nat) (t : List Bool), (l.foldl (maskStep mask) t).length = t.length := by
  intro l
  induction l with
  | nil => intro t; rfl
  | cons x xs ih => intro t; rw [List.foldl_cons, ih, length_maskStep]

theorem length_applyMask (t mask : List Bool) : (applyMask t mask).length = t.length :=
  length_foldl_maskStep mask _ t

theorem length_foldl_applyMask : ∀ (ms : List (List Bool)) (t : List Bool),
    (ms.foldl applyMask t).length = t.length := by
  intro ms
  induction ms with
  | nil => intro t; rfl
  | cons m ms ih => intro t; rw [List.foldl_cons, ih, length_applyMask]

theorem maskStep_mono (mask t : List Bool) (i j : Nat) (h : t.getD j false = true) :
    (maskStep mask t i).getD j false = true := by
  unfold maskStep
  split
  · exact getD_set_true t i j h
  · exact h

theorem foldl_maskStep_mono (mask : List Bool) :
    ∀ (l : List Nat) (t : List Bool) (j : Nat), t.getD j false = true →
      (l.foldl (maskStep mask) t).getD j false = true := by
  intro l
  induction l with
  | nil => intro t j h; exact h
  | cons x xs ih =>
    intro t j h
    rw [List.foldl_cons]
    exact ih _ j (maskStep_mono mask t x j h)

theorem applyMask_mono (t mask : List Bool) (j : Nat) (h : t.getD j false = true) :
    (applyMask t mask).getD j false = true :=
  foldl_maskStep_mono mask _ t j h

theorem foldl_applyMask_mono : ∀ (ms : List (List Bool)) (t : List Bool) (j : Nat),
    t.getD j false = true → (ms.foldl applyMask t).getD j false = true := by
  intro ms
  induction ms with
  | nil => intro t j h; exact h
  | cons m ms ih =>
    intro t j h
    rw [List.foldl_cons]
    exact ih _ j (applyMask_mono t m j h)

theorem foldl_maskStep_sets (mask : List Bool) (j : Nat) (hhit : maskHit mask j = true) :
    ∀ (l : List Nat), j ∈ l → ∀ (t : List Bool), j < t.length →
      (l.foldl (maskStep mask) t).getD j false = true := by
  intro l
  induction l with
  | nil => intro h; simp at h
  | cons x xs ih =>
    intro hmem t hlen
    rw [List.foldl_cons]
    rcases List.mem_cons.mp hmem with heq | hmem'
    · subst heq
      have hset : (maskStep mask t j).getD j false = true := by
        unfold maskStep
        rw [if_pos hhit]
        exact getD_set_self t j hlen
      exact foldl_maskStep_mono mask xs _ j hset
    · exact ih hmem' (maskStep mask t x) (by rw [length_maskStep]; exact hlen)

theorem applyMask_sets (t mask : List Bool) (j : Nat) (hhit : maskHit mask j = true)
    (hj : j < mask.length) (hlen : j < t.length) :
    (applyMask t mask).getD j false = true :=
  foldl_maskStep_sets mask j hhit (List.range mask.length) (List.mem_range.mpr hj) t hlen

theorem foldl_applyMask_sets (ms : List (List Bool)) (mask : List Bool) (hm : mask ∈ ms)
    (t : List Bool) (j : Nat) (hhit : maskHit mask j = true) (hj : j < mask.length)
    (hlen : j < t.length) : (ms.foldl applyMask t).getD j false = true := by
  obtain ⟨s1, s2, rfl⟩ := List.append_of_mem hm
  rw [List.foldl_append, List.foldl_cons]
  apply foldl_applyMask_mono
  apply applyMask_sets _ mask j hhit hj
  rw [length_foldl_applyMask]
  exact hlen

theorem getLastD_mem {masks : List (List Bool)} (hne : masks ≠ []) :
    masks.getLast?.getD [] ∈ masks := by
  rw [List.getLast?_eq_getLast_of_ne_nil hne]
  simp only [Option.getD_some]
  exact List.getLast_mem hne

/-! ### Claims about the shared row mask (C2, C6) -/

/-- C2: for per-glyph row masks of a common length `n`, every row `i` that is
true in some glyph's mask makes the shared mask of `determine_final_height`
true at rows `i - 1`, `i` and `min (i + 1) (n - 1)` (the clamped neighbours),
and the returned `actual_height` is the count of true entries of the shared
mask. -/
theorem C2_shared_row_mask_dilation (masks : List (List Bool)) (n : Nat)
    (hall : ∀ m ∈ masks, m.length = n) (mask : List Bool) (hm : mask ∈ masks)
    (i : Nat) (ht : mask.getD i false = true) :
    ((determine_final_height masks).1.getD (i - 1) false = true ∧
      (determine_final_height masks).1.getD i false = true ∧
      (determine_final_height masks).1.getD (min (i + 1) (n - 1)) false = true) ∧
    (determine_final_height masks).2 = (determine_final_height masks).1.count true := by
  have hmaskn : mask.length = n := hall mask hm
  have hi : i < n := by
    rw [← hmaskn]
    exact getD_true_lt_length mask i ht
  have hne : masks ≠ [] := List.ne_nil_of_mem hm
  have hinitlen : (List.replicate (masks.getLast?.getD []).length (false : Bool)).length
      = n := by
    rw [List.length_replicate]
    exact hall _ (getLastD_mem hne)
  have hit_i : maskHit mask i = true := by
    simp only [maskHit, Bool.or_eq_true]
    exact Or.inl (Or.inl ht)
  have hit_pred : maskHit mask (i - 1) = true := by
    rcases Nat.eq_zero_or_pos i with h0 | hpos
    · subst h0
      simp only [maskHit, Bool.or_eq_true]
      exact Or.inl (Or.inl ht)
    · have hmin : min ((i - 1) + 1) (mask.length - 1) = i := by
        have h1 : (i - 1) + 1 = i := by omega
        rw [h1]
        have h2 : i ≤ mask.length - 1 := by omega
        exact Nat.min_eq_left h2
      simp only [maskHit, Bool.or_eq_true, hmin]
      exact Or.inr ht
  have hit_succ : maskHit mask (min (i + 1) (n - 1)) = true := by
    rcases le_or_lt (i + 1) (n - 1) with hle | hgt
    · have hmin : min (i + 1) (n - 1) = i + 1 := Nat.min_eq_left hle
      have hsub : (i + 1) - 1 = i := by omega
      rw [hmin]
      simp only [maskHit, Bool.or_eq_true, hsub]
      exact Or.inl (Or.inr ht)
    · have hmin : min (i + 1) (n - 1) = i := by omega
      rw [hmin]
      simp only [maskHit, Bool.or_eq_true]
      exact Or.inl (Or.inl ht)
  refine ⟨⟨?_, ?_, ?_⟩, rfl⟩
  · exact foldl_applyMask_sets masks mask hm _ (i - 1) hit_pred (by omega) (by omega)
  · exact foldl_applyMask_sets masks mask hm _ i hit_i (by omega) (by omega)
  · exact foldl_applyMask_sets masks mask hm _ (min (i + 1) (n - 1)) hit_succ
      (by omega) (by omega)

theorem C2_shared_row_mask_dilation_witness :
    ((determine_final_height [[false, true, false, false]]).1.getD (1 - 1) false = true ∧
      (determine_final_height [[false, true, false, false]]).1.getD 1 false = true ∧
      (determine_final_height [[false, true, false, false]]).1.getD
        (min (1 + 1) (4 - 1)) false = true) ∧
    (determine_final_height [[false, true, false, false]]).2 =
      (determine_final_height [[false, true, false, false]]).1.count true :=
  C2_shared_row_mask_dilation [[false, true, false, false]] 4 (by decide)
    [false, true, false, false] (by decide) 1 (by decide)

/-- C6: for a non-empty list of per-glyph masks of common length
`n = max_height`, the `actual_height` returned by `determine_final_height` is
at most `n`, and is positive as soon as some glyph's mask has a true entry. -/
theorem C6_actual_height_bounds (masks : List (List Bool)) (n : Nat)
    (hne : masks ≠ []) (hall : ∀ m ∈ masks, m.length = n) :
    (determine_final_height masks).2 ≤ n ∧
    ((∃ m ∈ masks, ∃ i, m.getD i false = true) →
      0 < (determine_final_height masks).2) := by
  have hinitlen : (List.replicate (masks.getLast?.getD []).length (false : Bool)).length
      = n := by
    rw [List.length_replicate]
    exact hall _ (getLastD_mem hne)
  have hTlen : (masks.foldl applyMask
      (List.replicate (masks.getLast?.getD []).length false)).length = n := by
    rw [length_foldl_applyMask]
    exact hinitlen
  constructor
  · calc (determine_final_height masks).2
        ≤ (masks.foldl applyMask
            (List.replicate (masks.getLast?.getD []).length false)).length :=
          List.count_le_length _ _
      _ = n := hTlen
  · rintro ⟨m, hm, i, ht⟩
    have hi : i < n := by
      rw [← hall m hm]
      exact getD_true_lt_length m i ht
    have hit : maskHit m i = true := by
      simp only [maskHit, Bool.or_eq_true]
      exact Or.inl (Or.inl ht)
    have hT : (masks.foldl applyMask
        (List.replicate (masks.getLast?.getD []).length false)).getD i false = true :=
      foldl_applyMask_sets masks m hm _ i hit (by rw [hall m hm]; exact hi) (by omega)
    have hmem : true ∈ masks.foldl applyMask
        (List.replicate (masks.getLast?.getD []).length false) :=
      getD_true_mem _ i hT
    exact List.count_pos_iff.mpr hmem

theorem C6_actual_height_bounds_witness :
    (determine_final_height [[false, true, false, false]]).2 ≤ 4 ∧
    ((∃ m ∈ [[false, true, false, false]], ∃ i, m.getD i false = true) →
      0 < (determine_final_height [[false, true, false, false]]).2) :=
  C6_actual_height_bounds [[false, true, false, false]] 4 (by decide) (by decide)

/-! ### Helper lemmas about the size search -/

theorem searchLoop_const_zero_none : ∀ (fuel size last : Nat),
    searchLoop (fun _ => 0) 5 fuel 0 size last = none := by
  intro fuel
  induction fuel with
  | zero => intro size last; rfl
  | succ f ih =>
    intro size last
    rw [searchLoop, if_pos (by decide : (0 : Int) < 5)]
    exact ih (size + 1) size

theorem searchLoop_terminates (measure : Nat → Nat) (limit : Int) (s : Nat)
    (hs : limit ≤ (measure s : Int)) :
    ∀ (fuel size : Nat) (cur : Int) (last : Nat), s < size + fuel →
      (limit ≤ cur ∨ size ≤ s) →
      (searchLoop measure limit fuel cur size last).isSome = true := by
  intro fuel
  induction fuel with
  | zero =>
    intro size cur last hlt hd
    have hsize : ¬ size ≤ s := by omega
    have hcur : limit ≤ cur := hd.resolve_right hsize
    rw [searchLoop, if_neg (not_lt.mpr hcur)]
    split <;> rfl
  | succ f ih =>
    intro size cur last hlt hd
    by_cases hc : cur < limit
    · have hsize : size ≤ s := by
        rcases hd with hcur | hsize
        · exact absurd hc (not_lt.mpr hcur)
        · exact hsize
      rw [searchLoop, if_pos hc]
      refine ih (size + 1) ((measure size : Nat) : Int) size (by omega) ?_
      rcases eq_or_lt_of_le hsize with rfl | hlt2
      · exact Or.inl hs
      · exact Or.inr (by omega)
    · rw [searchLoop, if_neg hc]
      split <;> rfl

/-! ### Claims about the size search and its resolution (C1, C5, C7) -/

/-- C1 (code slip, off-by-one): with the monotone metrics `w(s) = 10·s` and
width limit 15, the width search returns size 2 although the measured width
of size 2 is 20 > 15 and size 1 (width 10) is the largest fitting size; the
height search does the same with limit 17 (adjusted to 15).  `last_size` is
updated in the same iteration as the measurement, so the function returns the
first overshooting size, not the last size that did not exceed the limit. -/
theorem C1_search_returns_overshooting_size :
    determine_font_size_by_max_width (fun s => 10 * s) 15 10 = some 2 ∧
    (15 : Int) < ((10 * 2 : Nat) : Int) ∧
    ((10 * 1 : Nat) : Int) ≤ 15 ∧
    determine_font_size_by_max_height (fun s => 10 * s) 17 10 = some 2 ∧
    (17 : Int) - 2 < ((10 * 2 : Nat) : Int) ∧
    ((10 * 1 : Nat) : Int) ≤ 17 - 2 := by
  refine ⟨by decide, by decide, by decide, by decide, by decide, by decide⟩

/-- C5: in mode `max_px_both`, `font_to_pixels` resolves the font size to the
minimum of the height-bounded and the width-bounded search results. -/
theorem C5_both_mode_min (widthOf heightOf : Nat → Nat)
    (letter_max_px_width str_max_px_width : Int) (input_font_size fuel : Nat)
    (size_by_height size_by_width : Nat)
    (hh : determine_font_size_by_max_height heightOf letter_max_px_width fuel =
      some size_by_height)
    (hw : determine_font_size_by_max_width widthOf str_max_px_width fuel =
      some size_by_width) :
    resolve_font_size widthOf heightOf "max_px_both" letter_max_px_width
      str_max_px_width input_font_size fuel = some (min size_by_height size_by_width) := by
  unfold resolve_font_size
  rw [if_neg (by decide), if_neg (by decide), if_neg (by decide), if_pos rfl, hh, hw]

theorem C5_both_mode_min_witness :
    determine_font_size_by_max_height (fun s => 2 * s) 25 20 = some 12 ∧
    determine_font_size_by_max_width (fun s => 2 * s) 17 20 = some 9 ∧
    resolve_font_size (fun s => 2 * s) (fun s => 2 * s) "max_px_both" 25 17 60 20 =
      some 9 := by
  have h := C5_both_mode_min (fun s => 2 * s) (fun s => 2 * s) 25 17 60 20 12 9
    (by decide) (by decide)
  exact ⟨by decide, by decide, by simpa using h⟩

/-- C7 (refuted as stated): the ascending size search has no upper bound at
all.  With a metrics function that never reaches the limit (e.g. an empty
probe string, whose width is 0 at every size), the `while` loop runs forever:
no fuel bound makes the search return, and no error is ever reported. -/
theorem C7_search_no_upper_bound :
    ¬ ∃ fuel : Nat, (determine_font_size_by_max_width (fun _ => 0) 5 fuel).isSome = true := by
  rintro ⟨fuel, h⟩
  have h0 : determine_font_size_by_max_width (fun _ => 0) 5 fuel = none :=
    searchLoop_const_zero_none fuel 1 1
  rw [h0] at h
  simp at h

/-- C7 amended: the search terminates (without any bound check) exactly when
the metrics eventually reach the limit: if some size `s ≥ 1` measures at or
above the (adjusted) limit, fuel `s` suffices for both search variants. -/
theorem C7_search_terminates_when_limit_reachable (measure : Nat → Nat)
    (limit : Int) (s : Nat) (h1 : 1 ≤ s) :
    (limit ≤ (measure s : Int) →
      (determine_font_size_by_max_width measure limit s).isSome = true) ∧
    (limit - 2 ≤ (measure s : Int) →
      (determine_font_size_by_max_height measure limit s).isSome = true) := by
  constructor
  · intro hs
    exact searchLoop_terminates measure limit s hs s 1 0 1 (by omega) (Or.inr h1)
  · intro hs
    exact searchLoop_terminates measure (limit - 2) s hs s 1 0 1 (by omega) (Or.inr h1)

theorem C7_search_terminates_witness :
    (determine_font_size_by_max_width (fun s : Nat => s) 2 2).isSome = true ∧
    (determine_font_size_by_max_height (fun s : Nat => s) 2 2).isSome = true := by
  have h := C7_search_terminates_when_limit_reachable (fun s : Nat => s) 2 2 (by decide)
  exact ⟨h.1 (by decide), h.2 (by decide)⟩

/-! ### Claim about the maximum-dimension scan (C8) -/

theorem foldl_max_spec (f : Char → Nat) :
    ∀ (s : List Char) (init : Nat),
      init ≤ s.foldl (fun a c => max (f c) a) init ∧
      (∀ c ∈ s, f c ≤ s.foldl (fun a c => max (f c) a) init) ∧
      (s.foldl (fun a c => max (f c) a) init = init ∨
        ∃ c ∈ s, s.foldl (fun a c => max (f c) a) init = f c) := by
  intro s
  induction s with
  | nil => intro init; exact ⟨le_refl _, by simp, Or.inl rfl⟩
  | cons c t ih =>
    intro init
    obtain ⟨h1, h2, h3⟩ := ih (max (f c) init)
    simp only [List.foldl_cons]
    refine ⟨le_trans (Nat.le_max_right _ _) h1, ?_, ?_⟩
    · intro x hx
      rcases List.mem_cons.mp hx with rfl | hx'
      · exact le_trans (Nat.le_max_left _ _) h1
      · exact h2 x hx'
    · rcases h3 with heq | ⟨d, hd, hde⟩
      · rcases Nat.le_total (f c) init with hle | hle
        · exact Or.inl (heq.trans (Nat.max_eq_right hle))
        · exact Or.inr ⟨c, List.mem_cons_self _ _, heq.trans (Nat.max_eq_left hle)⟩
      · exact Or.inr ⟨d, List.mem_cons_of_mem _ hd, hde⟩

theorem foldl_pair_split (dims : Char → Nat × Nat) :
    ∀ (s : List Char) (a b : Nat),
      s.foldl (fun acc c => (max (dims c).1 acc.1, max (dims c).2 acc.2)) (a, b) =
        (s.foldl (fun x c => max (dims c).1 x) a,
         s.foldl (fun y c => max (dims c).2 y) b) := by
  intro s
  induction s with
  | nil => intro a b; rfl
  | cons c t ih =>
    intro a b
    simp only [List.foldl_cons]
    exact ih _ _

/-- C8: `get_max_letter_dimensions` returns as `max_width` the maximum of the
per-character ink widths of the alphabet (an upper bound that is attained for
non-empty alphabets) and as `max_height` twice the maximum of the
per-character ink heights. -/
theorem C8_max_letter_dimensions (dims : Char → Nat × Nat) (base_string : List Char) :
    (∀ c ∈ base_string,
      (dims c).1 ≤ (get_max_letter_dimensions dims base_string).1 ∧
      (dims c).2 * 2 ≤ (get_max_letter_dimensions dims base_string).2) ∧
    (base_string ≠ [] →
      (∃ c ∈ base_string,
        (get_max_letter_dimensions dims base_string).1 = (dims c).1) ∧
      (∃ c ∈ base_string,
        (get_max_letter_dimensions dims base_string).2 = (dims c).2 * 2)) := by
  have hget : get_max_letter_dimensions dims base_string =
      (base_string.foldl (fun x c => max ((dims c).1) x) 0,
       (base_string.foldl (fun y c => max ((dims c).2) y) 0) * 2) := by
    simp only [get_max_letter_dimensions, foldl_pair_split dims base_string 0 0]
  obtain ⟨_, hwb, hwa⟩ := foldl_max_spec (fun c => (dims c).1) base_string 0
  obtain ⟨_, hhb, hha⟩ := foldl_max_spec (fun c => (dims c).2) base_string 0
  rw [hget]
  constructor
  · intro c hc
    exact ⟨hwb c hc, Nat.mul_le_mul_right 2 (hhb c hc)⟩
  · intro hne
    obtain ⟨c0, t0, rfl⟩ := List.exists_cons_of_ne_nil hne
    constructor
    · rcases hwa with heq | ⟨c, hc, hce⟩
      · have hle := hwb c0 (List.mem_cons_self _ _)
        exact ⟨c0, List.mem_cons_self _ _, by omega⟩
      · exact ⟨c, hc, hce⟩
    · rcases hha with heq | ⟨c, hc, hce⟩
      · have hle := hhb c0 (List.mem_cons_self _ _)
        exact ⟨c0, List.mem_cons_self _ _, by omega⟩
      · exact ⟨c, hc, by omega⟩

theorem C8_max_letter_dimensions_witness :
    ((fun _ : Char => ((3 : Nat), (2 : Nat))) 'a').1 ≤
      (get_max_letter_dimensions (fun _ : Char => ((3 : Nat), (2 : Nat))) ['a', 'b']).1 ∧
    ((fun _ : Char => ((3 : Nat), (2 : Nat))) 'a').2 * 2 ≤
      (get_max_letter_dimensions (fun _ : Char => ((3 : Nat), (2 : Nat))) ['a', 'b']).2 :=
  (C8_max_letter_dimensions (fun _ : Char => ((3 : Nat), (2 : Nat))) ['a', 'b']).1
    'a' (by decide)

/-! ### Claim about configuration-error handling (C9) -/

/-- C9 amended: an unknown size-selection mode (Python: unbound `font_size`,
`UnboundLocalError` before the font is even loaded) and an empty alphabet
(Python: `IndexError` at `masks[-1]`) both abort the pipeline before the
output destination is opened, so no (partial) output exists; a non-positive
pixel limit, however, is not detected (see the counterexample). -/
theorem C9_unknown_mode_empty_alphabet_abort (widthOf heightOf : Nat → Nat)
    (dims : Nat → Char → Nat × Nat)
    (raster : Nat → Char → Nat → Nat → List (List Bool)) (all_letters : List Char)
    (font_size_option : String) (letter_max_px_width str_max_px_width : Int)
    (input_font_size fuel : Nat) :
    (font_size_option ≠ "font_size" → font_size_option ≠ "letter_max_px_width" →
      font_size_option ≠ "str_max_px_width" → font_size_option ≠ "max_px_both" →
      font_to_pixels widthOf heightOf dims raster all_letters font_size_option
        letter_max_px_width str_max_px_width input_font_size fuel = none) ∧
    (all_letters = [] →
      font_to_pixels widthOf heightOf dims raster all_letters font_size_option
        letter_max_px_width str_max_px_width input_font_size fuel = none) := by
  constructor
  · intro h1 h2 h3 h4
    have hres : resolve_font_size widthOf heightOf font_size_option letter_max_px_width
        str_max_px_width input_font_size fuel = none := by
      unfold resolve_font_size
      rw [if_neg h1, if_neg h2, if_neg h3, if_neg h4]
    unfold font_to_pixels
    rw [hres]
  · intro hempty
    subst hempty
    rcases hres : resolve_font_size widthOf heightOf font_size_option letter_max_px_width
        str_max_px_width input_font_size fuel with _ | fs <;>
      simp [font_to_pixels, hres]

theorem C9_unknown_mode_empty_alphabet_abort_witness :
    font_to_pixels (fun s => s) (fun s => s) (fun _ _ => (2, 2))
      (fun _ _ _ _ => [[true, true]]) ['a'] "bogus" 40 360 60 10 = none ∧
    font_to_pixels (fun s => s) (fun s => s) (fun _ _ => (2, 2))
      (fun _ _ _ _ => [[true, true]]) [] "font_size" 40 360 60 10 = none := by
  have h1 := (C9_unknown_mode_empty_alphabet_abort (fun s => s) (fun s => s)
    (fun _ _ => (2, 2)) (fun _ _ _ _ => [[true, true]]) ['a'] "bogus" 40 360 60 10).1
    (by decide) (by decide) (by decide) (by decide)
  have h2 := (C9_unknown_mode_empty_alphabet_abort (fun s => s) (fun s => s)
    (fun _ _ => (2, 2)) (fun _ _ _ _ => [[true, true]]) [] "font_size" 40 360 60 10).2
    rfl
  exact ⟨h1, h2⟩

/-- C9 counterexample: a non-positive pixel limit is not a configuration
error.  With both limits 0 in mode `max_px_both`, both searches immediately
return size 1 and the pipeline runs to completion, producing output. -/
theorem C9_nonpositive_limit_not_rejected :
    (font_to_pixels (fun s => s) (fun s => s) (fun _ _ => (2, 2))
      (fun _ _ _ _ => [[true, true], [true, true], [false, false], [false, false]])
      ['a'] "max_px_both" 0 0 60 10).isSome = true := by
  rfl

end TextToMatrix
